import Mathlib

set_option maxRecDepth 8000
set_option linter.unusedTactic false
set_option linter.unnecessarySeqFocus false

/-! Verification development for the bounded repository sampler
    (`walk`, `isBinaryByExt`, `readSample`, `summarizeRepo` in `src/cli.ts`).
    Paths, file names and file contents are modelled as lists of characters;
    the file system is a finite tree in which every fallible operation's
    failure is an explicit constructor or `Option`. -/

/-- A node of the modelled file system.  `file name content` is a regular
    file (`content = none` models `readFileSync` throwing); `dir name
    listable entries` is a directory (`listable = false` models `readdir`
    throwing); `statFail name` is an entry on which `statSync` throws;
    `other name` is an entry that is neither a file nor a directory
    (socket, fifo, ...). -/
inductive FSTree where
  | file (name : List Char) (content : Option (List Char))
  | dir (name : List Char) (listable : Bool) (entries : List FSTree)
  | statFail (name : List Char)
  | other (name : List Char)

mutual

/-- Number of nodes of a tree, ignoring names (used only to compute a
    sufficient fuel for the traversal loop). -/
def FSTree.sz : FSTree → Nat
  | FSTree.file _ _ => 1
  | FSTree.statFail _ => 1
  | FSTree.other _ => 1
  | FSTree.dir _ _ es => 1 + szList es

/-- Total number of nodes of a list of trees. -/
def szList : List FSTree → Nat
  | [] => 0
  | t :: ts => FSTree.sz t + szList ts

end

/-- The fixed ignore set of `src/cli.ts` (`DEFAULT_IGNORES`). -/
def DEFAULT_IGNORES : List (List Char) :=
  ["node_modules".toList, ".git".toList, "dist".toList, "build".toList,
   ".next".toList, ".turbo".toList, "coverage".toList, ".venv".toList,
   "venv".toList, "out".toList]

/-- The fixed binary-extension set of `src/cli.ts` (`BINARY_EXT`). -/
def BINARY_EXT : List (List Char) :=
  [".png".toList, ".jpg".toList, ".jpeg".toList, ".gif".toList,
   ".webp".toList, ".ico".toList, ".pdf".toList, ".zip".toList,
   ".gz".toList, ".tar".toList, ".rar".toList, ".7z".toList,
   ".exe".toList, ".dll".toList, ".bin".toList]

/-- Model of `path.join(a, b)`: concatenation with a single separator
    (no extra separator when `a` already ends in one). -/
def joinPath (a b : List Char) : List Char :=
  if a.getLast? = some '/' then a ++ b else a ++ '/' :: b

/-- The traversal loop of `walk` in `src/cli.ts`, with an explicit fuel
    (each loop step consumes one unit; `walk` supplies enough fuel for the
    whole tree).  `pending` is the remainder of the `for (const name of
    dirents)` loop over the current directory's entries, `stack` is the
    explicit LIFO frontier (top at the head), `count` the number of files
    yielded so far.  A yielded file is returned together with its
    `readFileSync` result (the model of reading it later). -/
def walkGo : Nat → List Char → List FSTree → List (List Char × FSTree) →
    Nat → Nat → List (List Char × Option (List Char))
  | 0, _, _, _, _, _ => []
  | Nat.succ fuel, current, FSTree.file name c :: es, stack, count, maxFiles =>
      if maxFiles ≤ count then []
      else if DEFAULT_IGNORES.contains name then
        walkGo fuel current es stack count maxFiles
      else (joinPath current name, c) :: walkGo fuel current es stack (count + 1) maxFiles
  | Nat.succ fuel, current, FSTree.dir name b cs :: es, stack, count, maxFiles =>
      if maxFiles ≤ count then []
      else if DEFAULT_IGNORES.contains name then
        walkGo fuel current es stack count maxFiles
      else walkGo fuel current es
        ((joinPath current name, FSTree.dir name b cs) :: stack) count maxFiles
  | Nat.succ fuel, current, FSTree.statFail name :: es, stack, count, maxFiles =>
      if maxFiles ≤ count then []
      else if DEFAULT_IGNORES.contains name then
        walkGo fuel current es stack count maxFiles
      else walkGo fuel current es stack count maxFiles
  | Nat.succ fuel, current, FSTree.other name :: es, stack, count, maxFiles =>
      if maxFiles ≤ count then []
      else if DEFAULT_IGNORES.contains name then
        walkGo fuel current es stack count maxFiles
      else walkGo fuel current es stack count maxFiles
  | Nat.succ fuel, _current, [], (p, FSTree.dir _ true cs) :: stack, count, maxFiles =>
      if maxFiles ≤ count then []
      else walkGo fuel p cs stack count maxFiles
  | Nat.succ fuel, current, [], (_, FSTree.dir _ false _) :: stack, count, maxFiles =>
      if maxFiles ≤ count then []
      else walkGo fuel current [] stack count maxFiles
  | Nat.succ fuel, current, [], (_, FSTree.file _ _) :: stack, count, maxFiles =>
      if maxFiles ≤ count then []
      else walkGo fuel current [] stack count maxFiles
  | Nat.succ fuel, current, [], (_, FSTree.statFail _) :: stack, count, maxFiles =>
      if maxFiles ≤ count then []
      else walkGo fuel current [] stack count maxFiles
  | Nat.succ fuel, current, [], (_, FSTree.other _) :: stack, count, maxFiles =>
      if maxFiles ≤ count then []
      else walkGo fuel current [] stack count maxFiles
  | _, _, [], [], _, _ => []

/-- `walk(dir, { maxFiles })` of `src/cli.ts`: seed the frontier with the
    root path and run the loop with enough fuel to exhaust the tree. -/
def walk (dir : List Char) (t : FSTree) (maxFiles : Nat) :
    List (List Char × Option (List Char)) :=
  walkGo (2 * FSTree.sz t + 1) dir [] [(dir, t)] 0 maxFiles

/-- Model of `String.prototype.lastIndexOf` for a single character:
    index of the last occurrence of `c`, or `-1` when absent. -/
def lastIndexOf (c : Char) : List Char → Int
  | [] => -1
  | x :: xs =>
    let r := lastIndexOf c xs
    if 0 ≤ r then r + 1 else if x = c then 0 else -1

/-- Model of `String.prototype.toLowerCase` (character-wise lowering). -/
def toLowerL (l : List Char) : List Char := l.map Char.toLower

/-- `isBinaryByExt` of `src/cli.ts`: look up the slice of the path from its
    last dot, lowercased, in `BINARY_EXT`; a path without a dot is never
    binary. -/
def isBinaryByExt (path : List Char) : Bool :=
  let i := lastIndexOf '.' path
  if i < 0 then false
  else BINARY_EXT.contains (toLowerL (path.drop i.toNat))

/-- `readSample` of `src/cli.ts`.  The file's `readFileSync` result is the
    `content` argument (`none` models a throwing read); a binary extension
    short-circuits before any read. -/
def readSample (file : List Char) (content : Option (List Char))
    (maxChars : Nat) : Option (List Char) :=
  if isBinaryByExt file then none
  else match content with
    | none => none
    | some text => some (text.take maxChars)

/-- The `dir.endsWith("/") || dir.endsWith("\\")` test of `summarizeRepo`. -/
def endsWithSep (dir : List Char) : Bool :=
  dir.getLast? == some '/' || dir.getLast? == some '\\'

/-- The relative-path computation of `summarizeRepo`: strip the root prefix
    plus one separator character (none when the root already ends in a
    separator); fall back to the absolute path when the file does not start
    with the root. -/
def relOf (dir file : List Char) : List Char :=
  if dir.isPrefixOf file then
    file.drop (dir.length + (if endsWithSep dir then 0 else 1))
  else file

/-- One included excerpt of the summary: the absolute file path it came
    from, the relative path placed in the markers, and the (truncated)
    text. -/
structure Excerpt where
  file : List Char
  rel : List Char
  text : List Char
deriving DecidableEq

/-- The body of `summarizeRepo`'s `for await` loop: consume the walked
    files in order, skipping absent samples, stopping once `maxFiles`
    excerpts are included (`included` is the running include count). -/
def gather (dir : List Char) (maxFiles maxChars : Nat) :
    List (List Char × Option (List Char)) → Nat → List Excerpt
  | [], _ => []
  | (f, c) :: rest, included =>
    if maxFiles ≤ included then []
    else match readSample f c maxChars with
      | none => gather dir maxFiles maxChars rest included
      | some sample =>
          { file := f, rel := relOf dir f, text := sample } ::
            gather dir maxFiles maxChars rest (included + 1)

/-- The excerpts included by `summarizeRepo dir maxFiles maxChars` on the
    modelled tree `t`. -/
def excerptsOf (dir : List Char) (t : FSTree) (maxFiles maxChars : Nat) :
    List Excerpt :=
  gather dir maxFiles maxChars (walk dir t maxFiles) 0

/-- The delimited block pushed for one excerpt. -/
def excerptBlock (e : Excerpt) : List Char :=
  "\n--- BEGIN FILE: ".toList ++ e.rel ++ " ---\n".toList ++ e.text ++
    "\n--- END FILE: ".toList ++ e.rel ++ " ---".toList

/-- The fixed sentinel line pushed when no file was included. -/
def sentinel : List Char := "No readable source files found.".toList

/-- The root header line of the summary. -/
def headerOf (dir : List Char) : List Char := "Root: ".toList ++ dir

/-- `summarizeRepo` of `src/cli.ts`, as the ordered list of parts it pushes
    (the returned string is their join with a newline): the root header,
    one block per included excerpt, and the sentinel when none was
    included. -/
def summarizeRepo (dir : List Char) (t : FSTree) (maxFiles maxChars : Nat) :
    List (List Char) :=
  let ex := excerptsOf dir t maxFiles maxChars
  (headerOf dir :: ex.map excerptBlock) ++
    (if ex.length = 0 then [sentinel] else [])

/-- The final summary string (the `parts.join("\n")` of the source). -/
def summaryText (dir : List Char) (t : FSTree) (maxFiles maxChars : Nat) :
    List Char :=
  List.intercalate ['\n'] (summarizeRepo dir t maxFiles maxChars)

example : FSTree.sz (FSTree.dir ("r".toList) true
    [FSTree.file ("a".toList) none, FSTree.statFail ("b".toList)]) = 3 := rfl

/-! Helper lemmas about the traversal loop and the gathering loop. -/

theorem walkGo_len (fuel : Nat) (cur : List Char) (pending : List FSTree)
    (stack : List (List Char × FSTree)) (count maxFiles : Nat) :
    (walkGo fuel cur pending stack count maxFiles).length ≤ maxFiles - count := by
  induction fuel, cur, pending, stack, count, maxFiles using walkGo.induct <;>
    simp only [walkGo] <;> (try split) <;> (try split) <;> simp_all <;> omega

theorem gather_len (dir : List Char) (maxFiles maxChars : Nat)
    (files : List (List Char × Option (List Char))) :
    ∀ included, (gather dir maxFiles maxChars files included).length ≤
      maxFiles - included := by
  induction files with
  | nil => intro included; simp [gather]
  | cons fc rest ih =>
    intro included
    obtain ⟨f, c⟩ := fc
    simp only [gather]
    split
    · simp
    · cases h : readSample f c maxChars with
      | none => simpa [h] using ih included
      | some s =>
        have := ih (included + 1)
        simp only [h, List.length_cons]
        omega

theorem readSample_some_len {file : List Char} {content : Option (List Char)}
    {maxChars : Nat} {s : List Char}
    (h : readSample file content maxChars = some s) : s.length ≤ maxChars := by
  unfold readSample at h
  split at h
  · exact absurd h (by simp)
  · cases content with
    | none => exact absurd h (by simp)
    | some text =>
      simp only [Option.some.injEq] at h
      subst h
      rw [List.length_take]
      exact min_le_left _ _

theorem readSample_not_binary {file : List Char} {content : Option (List Char)}
    {maxChars : Nat} {s : List Char}
    (h : readSample file content maxChars = some s) : isBinaryByExt file = false := by
  unfold readSample at h
  split at h
  · exact absurd h (by simp)
  · simpa using Bool.of_not_eq_true (by assumption)

theorem gather_mem {dir : List Char} {maxFiles maxChars : Nat}
    {files : List (List Char × Option (List Char))} :
    ∀ {included : Nat} {e : Excerpt},
      e ∈ gather dir maxFiles maxChars files included →
      (∃ c, (e.file, c) ∈ files ∧ readSample e.file c maxChars = some e.text) ∧
        e.rel = relOf dir e.file := by
  induction files with
  | nil => intro included e h; simp [gather] at h
  | cons fc rest ih =>
    intro included e h
    obtain ⟨f, c⟩ := fc
    simp only [gather] at h
    split at h
    · simp at h
    · cases hs : readSample f c maxChars with
      | none =>
        rw [hs] at h
        obtain ⟨⟨c', hc', hr⟩, hrel⟩ := ih h
        exact ⟨⟨c', List.mem_cons_of_mem _ hc', hr⟩, hrel⟩
      | some s =>
        rw [hs] at h
        rcases List.mem_cons.mp h with he | he
        · subst he
          exact ⟨⟨c, List.mem_cons_self _ _, hs⟩, rfl⟩
        · obtain ⟨⟨c', hc', hr⟩, hrel⟩ := ih he
          exact ⟨⟨c', List.mem_cons_of_mem _ hc', hr⟩, hrel⟩

example :
    excerptsOf ("/repo".toList)
      (FSTree.dir ("repo".toList) true
        [FSTree.file ("a.txt".toList) (some ("hello".toList)),
         FSTree.file ("img.png".toList) (some ("junk".toList)),
         FSTree.dir ("node_modules".toList) true
           [FSTree.file ("x.js".toList) (some ("zz".toList))]])
      10 100 =
    [{ file := "/repo/a.txt".toList, rel := "a.txt".toList,
       text := "hello".toList }] := by decide

example : readSample ("/r/a.txt".toList) (some ("hello".toList)) 3 =
    some ("hel".toList) := by decide

example :
    walk ("/r".toList)
      (FSTree.dir ("r".toList) true
        [FSTree.file ("a.txt".toList) (some ("hi".toList)),
         FSTree.dir ("node_modules".toList) true
           [FSTree.file ("x.js".toList) (some ("no".toList))],
         FSTree.dir ("d".toList) true
           [FSTree.file ("b.txt".toList) (some ("yo".toList))]])
      10 =
    [("/r/a.txt".toList, some ("hi".toList)),
     ("/r/d/b.txt".toList, some ("yo".toList))] := by decide

/-! Claim theorems. -/

/-- Claim C1: for every configuration and every directory tree, the
    traverser yields at most `maxFiles` file paths, and the assembled
    summary contains at most `maxFiles` excerpt blocks, each block's text
    having length at most `maxCharsPerFile` characters. -/
theorem C1_bounding (dir : List Char) (t : FSTree) (maxFiles maxChars : Nat) :
    (walk dir t maxFiles).length ≤ maxFiles ∧
    (excerptsOf dir t maxFiles maxChars).length ≤ maxFiles ∧
    ∀ e ∈ excerptsOf dir t maxFiles maxChars, e.text.length ≤ maxChars := by
  refine ⟨?_, ?_, ?_⟩
  · have := walkGo_len (2 * FSTree.sz t + 1) dir [] [(dir, t)] 0 maxFiles
    simpa [walk] using this
  · have := gather_len dir maxFiles maxChars (walk dir t maxFiles) 0
    simpa [excerptsOf] using this
  · intro e he
    obtain ⟨⟨c, _, hr⟩, _⟩ := gather_mem he
    exact readSample_some_len hr

theorem C1_bounding_witness :
    (walk ("/a".toList) (FSTree.dir ("a".toList) true
        [FSTree.file ("f.txt".toList) (some ("hey".toList))]) 3).length ≤ 3 ∧
    (Excerpt.mk ("/a/f.txt".toList) ("f.txt".toList) ("he".toList)).text.length ≤ 2 :=
  ⟨(C1_bounding ("/a".toList) (FSTree.dir ("a".toList) true
      [FSTree.file ("f.txt".toList) (some ("hey".toList))]) 3 2).1,
   (C1_bounding ("/a".toList) (FSTree.dir ("a".toList) true
      [FSTree.file ("f.txt".toList) (some ("hey".toList))]) 3 2).2.2
     (Excerpt.mk ("/a/f.txt".toList) ("f.txt".toList) ("he".toList)) (by decide)⟩

/-- Claim C4: for every non-binary, readable file, the sampler returns its
    decoded content truncated to at most `maxChars` characters counted per
    character, and sampling a file containing "hello" with `maxChars = 3`
    returns exactly "hel". -/
theorem C4_truncation (file content : List Char) (maxChars : Nat)
    (h : isBinaryByExt file = false) :
    readSample file (some content) maxChars = some (content.take maxChars) ∧
    (content.take maxChars).length ≤ maxChars ∧
    readSample ("a.txt".toList) (some ("hello".toList)) 3 =
      some ("hel".toList) := by
  refine ⟨?_, ?_, by decide⟩
  · simp [readSample, h]
  · rw [List.length_take]
    exact min_le_left _ _

theorem C4_truncation_witness :
    isBinaryByExt ("b.md".toList) = false ∧
    readSample ("b.md".toList) (some ("wxyz".toList)) 2 =
      some ("wx".toList) := by
  refine ⟨by decide, ?_⟩
  have h := (C4_truncation ("b.md".toList) ("wxyz".toList) 2 (by decide)).1
  have h2 : ("wxyz".toList).take 2 = "wx".toList := by decide
  rw [h2] at h
  exact h

/-- Claim C5: no per-entry filesystem failure propagates: an unlistable
    directory popped from the frontier contributes zero entries and the
    loop continues with the remaining frontier; an entry whose `stat`
    fails is skipped; reading a file that fails yields the absence signal;
    and the scan always returns a summary starting with the root header. -/
theorem C5_fault_tolerance :
    (∀ fuel cur p n cs stack count maxFiles, count < maxFiles →
      walkGo (fuel + 1) cur [] ((p, FSTree.dir n false cs) :: stack)
          count maxFiles =
        walkGo fuel cur [] stack count maxFiles) ∧
    (∀ fuel cur name es stack count maxFiles, count < maxFiles →
      walkGo (fuel + 1) cur (FSTree.statFail name :: es) stack
          count maxFiles =
        walkGo fuel cur es stack count maxFiles) ∧
    (∀ file maxChars, readSample file none maxChars = none) ∧
    (∀ dir t maxFiles maxChars, ∃ rest,
      summarizeRepo dir t maxFiles maxChars = headerOf dir :: rest) := by
  refine ⟨?_, ?_, ?_, ?_⟩
  · intro fuel cur p n cs stack count maxFiles h
    simp [walkGo, Nat.not_le.mpr h]
  · intro fuel cur name es stack count maxFiles h
    simp only [walkGo]
    rw [if_neg (Nat.not_le.mpr h)]
    split <;> rfl
  · intro file maxChars
    unfold readSample
    split <;> rfl
  · intro dir t maxFiles maxChars
    exact ⟨_, rfl⟩

theorem C5_fault_tolerance_witness :
    (0 : Nat) < 5 ∧
    walkGo 4 ("/r".toList) []
        [("/r/d".toList, FSTree.dir ("d".toList) false [])] 0 5 =
      walkGo 3 ("/r".toList) [] [] 0 5 :=
  ⟨by decide,
   C5_fault_tolerance.1 3 ("/r".toList) ("/r/d".toList) ("d".toList) [] []
     0 5 (by decide)⟩

/-- Claim C8: a scan with `maxFiles = 0` includes no files (the summary is
    the header followed by the sentinel), and a scan with
    `maxCharsPerFile = 0` includes no content (every excerpt's text is
    empty); neither errors. -/
theorem C8_zero_caps (dir : List Char) (t : FSTree) (maxFiles maxChars : Nat) :
    summarizeRepo dir t 0 maxChars = [headerOf dir, sentinel] ∧
    (∀ e ∈ excerptsOf dir t maxFiles 0, e.text = []) := by
  constructor
  · have hlen := gather_len dir 0 maxChars (walk dir t 0) 0
    have hex : excerptsOf dir t 0 maxChars = [] := by
      have : (excerptsOf dir t 0 maxChars).length = 0 := by
        have := hlen
        simp only [excerptsOf]
        omega
      exact List.length_eq_zero.mp this
    simp [summarizeRepo, hex]
  · intro e he
    obtain ⟨⟨c, _, hr⟩, _⟩ := gather_mem he
    have := readSample_some_len hr
    exact List.length_eq_zero.mp (Nat.le_zero.mp this)

theorem C8_zero_caps_witness :
    summarizeRepo ("/a".toList)
        (FSTree.dir ("a".toList) true
          [FSTree.file ("f.txt".toList) (some ("hey".toList))]) 0 9 =
      [headerOf ("/a".toList), sentinel] ∧
    (Excerpt.mk ("/a/f.txt".toList) ("f.txt".toList) []).text = [] :=
  ⟨(C8_zero_caps ("/a".toList)
      (FSTree.dir ("a".toList) true
        [FSTree.file ("f.txt".toList) (some ("hey".toList))]) 3 9).1,
   (C8_zero_caps ("/a".toList)
      (FSTree.dir ("a".toList) true
        [FSTree.file ("f.txt".toList) (some ("hey".toList))]) 3 9).2
     (Excerpt.mk ("/a/f.txt".toList) ("f.txt".toList) []) (by decide)⟩

/-! Reachability invariant: every yielded path extends the root by a
    nonempty chain of non-ignored entry names. -/

/-- A path obtainable from `root` by joining zero or more entry names,
    none of which is in the ignore set. -/
def ReachOk (root q : List Char) : Prop :=
  ∃ names : List (List Char),
    (∀ n ∈ names, ¬ n ∈ DEFAULT_IGNORES) ∧ q = names.foldl joinPath root

/-- A path obtainable from `root` by joining at least one entry name,
    none of which is in the ignore set. -/
def ExtendsOk (root p : List Char) : Prop :=
  ∃ names : List (List Char), names ≠ [] ∧
    (∀ n ∈ names, ¬ n ∈ DEFAULT_IGNORES) ∧ p = names.foldl joinPath root

theorem reach_root (root : List Char) : ReachOk root root :=
  ⟨[], fun n hn => absurd hn (List.not_mem_nil n), rfl⟩

theorem reach_join {root cur name : List Char} (h : ReachOk root cur)
    (hn : ¬ DEFAULT_IGNORES.contains name = true) :
    ReachOk root (joinPath cur name) := by
  obtain ⟨ns, hns, rfl⟩ := h
  refine ⟨ns ++ [name], ?_, ?_⟩
  · intro m hm
    rcases List.mem_append.mp hm with h' | h'
    · exact hns m h'
    · rcases List.mem_singleton.mp h' with rfl
      intro hmem
      exact hn (List.elem_iff.mpr hmem)
  · rw [List.foldl_append]
    rfl

theorem reach_yield {root cur name : List Char} (h : ReachOk root cur)
    (hn : ¬ DEFAULT_IGNORES.contains name = true) :
    ExtendsOk root (joinPath cur name) := by
  obtain ⟨ns, hns, rfl⟩ := h
  refine ⟨ns ++ [name], by simp, ?_, ?_⟩
  · intro m hm
    rcases List.mem_append.mp hm with h' | h'
    · exact hns m h'
    · rcases List.mem_singleton.mp h' with rfl
      intro hmem
      exact hn (List.elem_iff.mpr hmem)
  · rw [List.foldl_append]
    rfl

theorem walkGo_reach (root : List Char) (fuel : Nat) (cur : List Char)
    (pending : List FSTree) (stack : List (List Char × FSTree))
    (count maxFiles : Nat) :
    ReachOk root cur →
    (∀ q t, (q, t) ∈ stack → ReachOk root q) →
    ∀ pr ∈ walkGo fuel cur pending stack count maxFiles,
      ExtendsOk root pr.1 := by
  induction fuel, cur, pending, stack, count, maxFiles using walkGo.induct with
  | case1 a b c d e =>
    intro _ _ pr hpr
    simp [walkGo] at hpr
  | case2 fuel current name c es stack count maxFiles h =>
    intro _ _ pr hpr
    simp [walkGo, h] at hpr
  | case3 fuel current name c es stack count maxFiles h1 h2 ih =>
    intro hcur hstack pr hpr
    simp only [walkGo] at hpr
    rw [if_neg h1, if_pos h2] at hpr
    exact ih hcur hstack pr hpr
  | case4 fuel current name c es stack count maxFiles h1 h2 ih =>
    intro hcur hstack pr hpr
    simp only [walkGo] at hpr
    rw [if_neg h1, if_neg h2] at hpr
    rcases List.mem_cons.mp hpr with h | h
    · subst h
      exact reach_yield hcur h2
    · exact ih hcur hstack pr h
  | case5 fuel current name b cs es stack count maxFiles h =>
    intro _ _ pr hpr
    simp [walkGo, h] at hpr
  | case6 fuel current name b cs es stack count maxFiles h1 h2 ih =>
    intro hcur hstack pr hpr
    simp only [walkGo] at hpr
    rw [if_neg h1, if_pos h2] at hpr
    exact ih hcur hstack pr hpr
  | case7 fuel current name b cs es stack count maxFiles h1 h2 ih =>
    intro hcur hstack pr hpr
    simp only [walkGo] at hpr
    rw [if_neg h1, if_neg h2] at hpr
    refine ih hcur ?_ pr hpr
    intro q t hqt
    rcases List.mem_cons.mp hqt with h | h
    · have hq : q = joinPath current name := congrArg Prod.fst h
      exact hq ▸ reach_join hcur h2
    · exact hstack q t h
  | case8 fuel current name es stack count maxFiles h =>
    intro _ _ pr hpr
    simp [walkGo, h] at hpr
  | case9 fuel current name es stack count maxFiles h1 h2 ih =>
    intro hcur hstack pr hpr
    simp only [walkGo] at hpr
    rw [if_neg h1, if_pos h2] at hpr
    exact ih hcur hstack pr hpr
  | case10 fuel current name es stack count maxFiles h1 h2 ih =>
    intro hcur hstack pr hpr
    simp only [walkGo] at hpr
    rw [if_neg h1, if_neg h2] at hpr
    exact ih hcur hstack pr hpr
  | case11 fuel current name es stack count maxFiles h =>
    intro _ _ pr hpr
    simp [walkGo, h] at hpr
  | case12 fuel current name es stack count maxFiles h1 h2 ih =>
    intro hcur hstack pr hpr
    simp only [walkGo] at hpr
    rw [if_neg h1, if_pos h2] at hpr
    exact ih hcur hstack pr hpr
  | case13 fuel current name es stack count maxFiles h1 h2 ih =>
    intro hcur hstack pr hpr
    simp only [walkGo] at hpr
    rw [if_neg h1, if_neg h2] at hpr
    exact ih hcur hstack pr hpr
  | case14 fuel current p name cs stack count maxFiles h =>
    intro _ _ pr hpr
    simp [walkGo, h] at hpr
  | case15 fuel current p name cs stack count maxFiles h1 ih =>
    intro hcur hstack pr hpr
    simp only [walkGo] at hpr
    rw [if_neg h1] at hpr
    refine ih ?_ ?_ pr hpr
    · exact hstack p (FSTree.dir name true cs) (List.mem_cons_self _ _)
    · intro q t hqt
      exact hstack q t (List.mem_cons_of_mem _ hqt)
  | case16 fuel current fst name entries stack count maxFiles h =>
    intro _ _ pr hpr
    simp [walkGo, h] at hpr
  | case17 fuel current fst name entries stack count maxFiles h1 ih =>
    intro hcur hstack pr hpr
    simp only [walkGo] at hpr
    rw [if_neg h1] at hpr
    exact ih hcur (fun q t hqt => hstack q t (List.mem_cons_of_mem _ hqt)) pr hpr
  | case18 fuel current fst name content stack count maxFiles h =>
    intro _ _ pr hpr
    simp [walkGo, h] at hpr
  | case19 fuel current fst name content stack count maxFiles h1 ih =>
    intro hcur hstack pr hpr
    simp only [walkGo] at hpr
    rw [if_neg h1] at hpr
    exact ih hcur (fun q t hqt => hstack q t (List.mem_cons_of_mem _ hqt)) pr hpr
  | case20 fuel current fst name stack count maxFiles h =>
    intro _ _ pr hpr
    simp [walkGo, h] at hpr
  | case21 fuel current fst name stack count maxFiles h1 ih =>
    intro hcur hstack pr hpr
    simp only [walkGo] at hpr
    rw [if_neg h1] at hpr
    exact ih hcur (fun q t hqt => hstack q t (List.mem_cons_of_mem _ hqt)) pr hpr
  | case22 fuel current fst name stack count maxFiles h =>
    intro _ _ pr hpr
    simp [walkGo, h] at hpr
  | case23 fuel current fst name stack count maxFiles h1 ih =>
    intro hcur hstack pr hpr
    simp only [walkGo] at hpr
    rw [if_neg h1] at hpr
    exact ih hcur (fun q t hqt => hstack q t (List.mem_cons_of_mem _ hqt)) pr hpr
  | case24 fuel a b c hnz =>
    intro _ _ pr hpr
    simp [walkGo] at hpr

theorem walk_reach {root : List Char} {t : FSTree} {maxFiles : Nat} :
    ∀ pr ∈ walk root t maxFiles, ExtendsOk root pr.1 := by
  intro pr hpr
  refine walkGo_reach root (2 * FSTree.sz t + 1) root [] [(root, t)] 0 maxFiles
    (reach_root root) ?_ pr hpr
  intro q t' hqt
  have hq : q = root := congrArg Prod.fst (List.mem_singleton.mp hqt)
  exact hq ▸ reach_root root

/-! Support for the binary-classification claim: relating the code's
    whole-path `lastIndexOf` computation to the spec's basename-based
    description. -/

/-- The characters of `p` strictly after the last occurrence of `c`
    (meaningful only when `c ∈ p`). -/
def afterLast (c : Char) (p : List Char) : List Char :=
  (p.reverse.takeWhile (fun x => x != c)).reverse

/-- The basename of a path: the characters after the last slash. -/
def basenameOf (p : List Char) : List Char :=
  (p.reverse.takeWhile (fun x => x != '/')).reverse

/-- Binary classification as the spec words it: the substring from the
    last dot of the path's basename (the extension, with its leading dot),
    lowercased, is looked up in `BINARY_EXT`; a basename without a dot is
    never classified binary. -/
def isBinarySpec (p : List Char) : Bool :=
  let b := basenameOf p
  if b.contains '.' then
    BINARY_EXT.contains (toLowerL ('.' :: afterLast '.' b))
  else false

theorem lastIndexOf_neg_iff (c : Char) (p : List Char) :
    lastIndexOf c p < 0 ↔ ¬ c ∈ p := by
  induction p with
  | nil => simp [lastIndexOf]
  | cons x xs ih =>
    simp only [lastIndexOf]
    by_cases h : (0 : Int) ≤ lastIndexOf c xs
    · rw [if_pos h]
      have hmem : c ∈ xs := by
        by_contra hn
        exact absurd (ih.mpr hn) (by omega)
      simp only [List.mem_cons]
      constructor
      · intro hlt; omega
      · intro hn; exact absurd (Or.inr hmem) hn
    · rw [if_neg h]
      have hnm : ¬ c ∈ xs := ih.mp (by omega)
      by_cases hx : x = c
      · rw [if_pos hx]
        simp [hx]
      · rw [if_neg hx]
        simp only [List.mem_cons]
        constructor
        · intro _ hor
          rcases hor with h' | h'
          · exact hx h'.symm
          · exact hnm h'
        · intro _; omega

theorem takeWhile_append_stop {q : Char → Bool} (l m : List Char) (y : Char)
    (hy : y ∈ l) (hq : q y = false) :
    (l ++ m).takeWhile q = l.takeWhile q := by
  induction l with
  | nil => cases hy
  | cons a as ih =>
    by_cases ha : q a = true
    · rcases List.mem_cons.mp hy with rfl | h
      · rw [ha] at hq; cases hq
      · simp [List.takeWhile, ha, ih h]
    · have ha' : q a = false := Bool.eq_false_iff.mpr ha
      simp [List.takeWhile, ha']

theorem takeWhile_append_all {q : Char → Bool} (l m : List Char)
    (h : ∀ y ∈ l, q y = true) :
    (l ++ m).takeWhile q = l ++ m.takeWhile q := by
  induction l with
  | nil => simp
  | cons a as ih =>
    have ha := h a (List.mem_cons_self a as)
    simp [List.takeWhile, ha, ih (fun y hy => h y (List.mem_cons_of_mem _ hy))]

theorem drop_lastIndexOf {c : Char} : ∀ {p : List Char}, c ∈ p →
    p.drop (lastIndexOf c p).toNat = c :: afterLast c p := by
  intro p
  induction p with
  | nil => intro h; cases h
  | cons x xs ih =>
    intro hmem
    by_cases h : c ∈ xs
    · have h0 : (0 : Int) ≤ lastIndexOf c xs := by
        have := (lastIndexOf_neg_iff c xs).mpr
        by_contra hn
        exact absurd ((lastIndexOf_neg_iff c xs).mp (by omega)) (by simpa using h)
      have heq : lastIndexOf c (x :: xs) = lastIndexOf c xs + 1 := by
        simp only [lastIndexOf]
        rw [if_pos h0]
      rw [heq]
      have ht : (lastIndexOf c xs + 1).toNat = (lastIndexOf c xs).toNat + 1 := by omega
      rw [ht]
      simp only [List.drop_succ_cons]
      rw [ih h]
      have harev : afterLast c (x :: xs) = afterLast c xs := by
        unfold afterLast
        simp only [List.reverse_cons]
        rw [takeWhile_append_stop xs.reverse [x] c (List.mem_reverse.mpr h)
          (by simp)]
      rw [harev]
    · have hx : x = c := by
        rcases List.mem_cons.mp hmem with h' | h'
        · exact h'.symm
        · exact absurd h' h
      have hneg : lastIndexOf c xs < 0 := (lastIndexOf_neg_iff c xs).mpr h
      have heq : lastIndexOf c (x :: xs) = 0 := by
        simp only [lastIndexOf]
        rw [if_neg (by omega), if_pos hx]
      rw [heq]
      simp only [Int.toNat_zero, List.drop_zero]
      have harev : afterLast c (x :: xs) = xs := by
        unfold afterLast
        simp only [List.reverse_cons]
        rw [takeWhile_append_all xs.reverse [x]
          (fun y hy => by
            have : y ∈ xs := List.mem_reverse.mp hy
            have hyc : y ≠ c := fun hcc => h (hcc ▸ this)
            simpa using hyc)]
        rw [hx]
        simp [List.takeWhile]
      rw [harev, hx]

theorem dropWhile_head_false {q : Char → Bool} : ∀ (l : List Char) (a : Char)
    (as : List Char), l.dropWhile q = a :: as → q a = false := by
  intro l
  induction l with
  | nil => intro a as h; cases h
  | cons x xs ih =>
    intro a as h
    by_cases hx : q x = true
    · simp only [List.dropWhile, hx] at h
      exact ih a as h
    · have hx' : q x = false := Bool.eq_false_iff.mpr hx
      simp only [List.dropWhile, hx'] at h
      obtain ⟨rfl, rfl⟩ := List.cons.injEq .. ▸ h
      exact hx'

theorem binary_ext_no_slash {w : List Char} (h : '/' ∈ w) :
    BINARY_EXT.contains w = false := by
  cases hc : BINARY_EXT.contains w
  · rfl
  · have hmem : w ∈ BINARY_EXT := List.elem_iff.mp hc
    have hall : ∀ v ∈ BINARY_EXT, '/' ∉ v := by decide
    exact absurd h (hall w hmem)

theorem mem_basename {x : Char} {p : List Char} (h : x ∈ basenameOf p) :
    x ∈ p := by
  unfold basenameOf at h
  have h1 : x ∈ p.reverse.takeWhile (fun y => y != '/') := List.mem_reverse.mp h
  have h2 : x ∈ p.reverse := (List.takeWhile_prefix _).subset h1
  exact List.mem_reverse.mp h2

theorem isBinaryByExt_eq_spec (p : List Char) :
    isBinaryByExt p = isBinarySpec p := by
  by_cases hp : '.' ∈ p
  · have hneg : ¬ lastIndexOf '.' p < 0 := by
      rw [lastIndexOf_neg_iff]
      simpa using hp
    have hcode : isBinaryByExt p =
        BINARY_EXT.contains (toLowerL ('.' :: afterLast '.' p)) := by
      unfold isBinaryByExt
      rw [if_neg hneg, drop_lastIndexOf hp]
    by_cases hb : '.' ∈ basenameOf p
    · have hd : '.' ∈ p.reverse.takeWhile (fun x => x != '/') :=
        List.mem_reverse.mp hb
      have hsame : afterLast '.' p = afterLast '.' (basenameOf p) := by
        unfold afterLast basenameOf
        congr 1
        rw [List.reverse_reverse]
        conv_lhs =>
          rw [← @List.takeWhile_append_dropWhile _ (fun x => x != '/') p.reverse]
        exact takeWhile_append_stop _ _ '.' hd (by simp)
      rw [hcode, hsame]
      unfold isBinarySpec
      rw [if_pos (List.elem_iff.mpr hb)]
    · have hbd : ¬ '.' ∈ p.reverse.takeWhile (fun x => x != '/') := fun hm =>
        hb (List.mem_reverse.mpr hm)
      have hdrop : '.' ∈ p.reverse.dropWhile (fun x => x != '/') := by
        have hrev : '.' ∈ p.reverse := List.mem_reverse.mpr hp
        conv at hrev =>
          rw [← @List.takeWhile_append_dropWhile _ (fun x => x != '/') p.reverse]
        rcases List.mem_append.mp hrev with h | h
        · exact absurd h hbd
        · exact h
      obtain ⟨r', hr⟩ : ∃ r',
          p.reverse.dropWhile (fun x => x != '/') = '/' :: r' := by
        rcases hhead : p.reverse.dropWhile (fun x => x != '/') with _ | ⟨a, as⟩
        · rw [hhead] at hdrop
          cases hdrop
        · have hfa := dropWhile_head_false p.reverse a as hhead
          have ha : a = '/' := by simpa using hfa
          subst ha
          exact ⟨as, rfl⟩
      have hslash : '/' ∈ afterLast '.' p := by
        unfold afterLast
        rw [List.mem_reverse]
        conv =>
          rw [← @List.takeWhile_append_dropWhile _ (fun x => x != '/') p.reverse]
        rw [hr]
        rw [takeWhile_append_all _ _
          (fun y hy => by
            have : y ≠ '.' := fun hyc => hbd (hyc ▸ hy)
            simpa using this)]
        refine List.mem_append.mpr (Or.inr ?_)
        have : ('/' :: r').takeWhile (fun x => x != '.') =
            '/' :: r'.takeWhile (fun x => x != '.') := by
          simp [List.takeWhile]
        rw [this]
        exact List.mem_cons_self _ _
      have hcand : '/' ∈ toLowerL ('.' :: afterLast '.' p) := by
        unfold toLowerL
        exact List.mem_map.mpr ⟨'/', List.mem_cons_of_mem _ hslash, by decide⟩
      rw [hcode, binary_ext_no_slash hcand]
      unfold isBinarySpec
      rw [if_neg (fun hc => hb (List.elem_iff.mp hc))]
  · have hneg : lastIndexOf '.' p < 0 := (lastIndexOf_neg_iff '.' p).mpr hp
    unfold isBinaryByExt isBinarySpec
    rw [if_pos hneg,
      if_neg (fun hc => hp (mem_basename (List.elem_iff.mp hc)))]

/-! Path-shape lemmas for the relative-path claim. -/

theorem foldl_joinPath_append (ns : List (List Char)) :
    ∀ q, ∃ s, ns.foldl joinPath q = q ++ s := by
  induction ns with
  | nil => intro q; exact ⟨[], by simp⟩
  | cons n ms ih =>
    intro q
    obtain ⟨s, hs⟩ := ih (joinPath q n)
    simp only [List.foldl_cons]
    rw [hs]
    unfold joinPath
    split
    · exact ⟨n ++ s, by rw [List.append_assoc]⟩
    · exact ⟨'/' :: (n ++ s), by simp⟩

theorem extends_shape {root p : List Char} (h : ExtendsOk root p) :
    (∃ s, p = root ++ s) ∧
    (root.getLast? ≠ some '/' → ∃ s, p = root ++ '/' :: s) := by
  obtain ⟨ns, hne, _, rfl⟩ := h
  rcases ns with _ | ⟨n, ms⟩
  · exact absurd rfl hne
  · constructor
    · obtain ⟨s, hs⟩ := foldl_joinPath_append (n :: ms) root
      exact ⟨s, hs⟩
    · intro hlast
      obtain ⟨s, hs⟩ := foldl_joinPath_append ms (joinPath root n)
      refine ⟨n ++ s, ?_⟩
      simp only [List.foldl_cons]
      rw [hs]
      unfold joinPath
      rw [if_neg hlast]
      simp

theorem isPrefixOf_append (root s : List Char) :
    root.isPrefixOf (root ++ s) = true :=
  List.isPrefixOf_iff_prefix.mpr (List.prefix_append root s)

theorem relOf_append {root s : List Char} (hsep : endsWithSep root = true) :
    relOf root (root ++ s) = s := by
  unfold relOf
  rw [if_pos (isPrefixOf_append root s), hsep]
  simp [List.drop_left]

theorem relOf_append_sep {root s : List Char}
    (hsep : endsWithSep root = false) :
    relOf root (root ++ '/' :: s) = s := by
  unfold relOf
  rw [if_pos (isPrefixOf_append root ('/' :: s)), hsep]
  have h1 : root ++ '/' :: s = (root ++ ['/']) ++ s := by simp
  have h2 : root.length + 1 = (root ++ ['/']).length := by simp
  simp only [Bool.false_eq_true, if_false, h1, h2]
  exact List.drop_left _ _

/-- Path segments: the pieces of a path between slashes. -/
def segmentsOf (p : List Char) : List (List Char) := p.splitOn '/'

theorem sentinel_head : sentinel.head? = some 'N' := rfl

theorem headerOf_head (dir : List Char) : (headerOf dir).head? = some 'R' := rfl

theorem excerptBlock_head (e : Excerpt) :
    (excerptBlock e).head? = some '\n' := rfl

/-- Claim C2 counterexample: with a root path whose own basename is in the
    ignore set, the traverser yields a path containing an ignored basename
    as a path segment (the root's own segment), and that file is included
    as an excerpt. -/
theorem C2_ignore_counterexample :
    (∃ pr ∈ walk ("/node_modules".toList)
        (FSTree.dir ("node_modules".toList) true
          [FSTree.file ("a.txt".toList) (some ("hi".toList))]) 5,
      ∃ seg ∈ segmentsOf pr.1, seg ∈ DEFAULT_IGNORES) ∧
    (∃ e ∈ excerptsOf ("/node_modules".toList)
        (FSTree.dir ("node_modules".toList) true
          [FSTree.file ("a.txt".toList) (some ("hi".toList))]) 5 9,
      ∃ seg ∈ segmentsOf e.file, seg ∈ DEFAULT_IGNORES) := by decide

/-- Claim C2 (amended): every path yielded by the traverser, and every
    included excerpt's file path, extends the root path by a nonempty
    chain of entry names none of which is in the ignore set (the root path
    itself is not filtered); moreover a directory or file entry whose
    basename is in the ignore set is skipped entirely: traversal continues
    exactly as if the entry were absent, so an ignored directory's subtree
    is never visited. -/
theorem C2_ignore_enforcement (root : List Char) (t : FSTree)
    (maxFiles maxChars : Nat) :
    (∀ pr ∈ walk root t maxFiles, ExtendsOk root pr.1) ∧
    (∀ e ∈ excerptsOf root t maxFiles maxChars, ExtendsOk root e.file) ∧
    (∀ fuel cur name c es stack count,
      ¬ maxFiles ≤ count → DEFAULT_IGNORES.contains name = true →
      walkGo (fuel + 1) cur (FSTree.file name c :: es) stack count maxFiles =
        walkGo fuel cur es stack count maxFiles ∧
      ∀ b cs,
        walkGo (fuel + 1) cur (FSTree.dir name b cs :: es) stack count
            maxFiles =
          walkGo fuel cur es stack count maxFiles) := by
  refine ⟨walk_reach, ?_, ?_⟩
  · intro e he
    obtain ⟨⟨c, hc, _⟩, _⟩ := gather_mem he
    exact walk_reach (e.file, c) hc
  · intro fuel cur name c es stack count h1 h2
    constructor
    · simp only [walkGo]
      rw [if_neg h1, if_pos h2]
    · intro b cs
      simp only [walkGo]
      rw [if_neg h1, if_pos h2]

theorem C2_ignore_enforcement_witness :
    ExtendsOk ("/r".toList) ("/r/a.txt".toList) :=
  (C2_ignore_enforcement ("/r".toList)
      (FSTree.dir ("r".toList) true
        [FSTree.file ("a.txt".toList) (some ("x".toList))]) 4 9).1
    ("/r/a.txt".toList, some ("x".toList)) (by decide)

/-- Claim C3: binary classification is extension-only and agrees with the
    spec's basename-based definition, and a file classified binary is
    never included as an excerpt (equivalently, every included excerpt's
    file is non-binary). -/
theorem C3_binary_classification :
    (∀ p, isBinaryByExt p = isBinarySpec p) ∧
    (∀ root t maxFiles maxChars e, e ∈ excerptsOf root t maxFiles maxChars →
      isBinaryByExt e.file = false) := by
  refine ⟨isBinaryByExt_eq_spec, ?_⟩
  intro root t maxFiles maxChars e he
  obtain ⟨⟨c, _, hr⟩, _⟩ := gather_mem he
  exact readSample_not_binary hr

theorem C3_binary_classification_witness :
    isBinaryByExt ("/r/a.txt".toList) = false :=
  C3_binary_classification.2 ("/r".toList)
    (FSTree.dir ("r".toList) true
      [FSTree.file ("a.txt".toList) (some ("x".toList))]) 4 9
    (Excerpt.mk ("/r/a.txt".toList) ("a.txt".toList) ("x".toList))
    (by decide)

/-- Claim C6: when zero files are included the summary is exactly the root
    header followed by the fixed sentinel line (no excerpt blocks); when at
    least one file is included the sentinel line is absent from the
    summary's parts. -/
theorem C6_sentinel (dir : List Char) (t : FSTree) (maxFiles maxChars : Nat) :
    (excerptsOf dir t maxFiles maxChars = [] →
      summarizeRepo dir t maxFiles maxChars = [headerOf dir, sentinel]) ∧
    (excerptsOf dir t maxFiles maxChars ≠ [] →
      ¬ sentinel ∈ summarizeRepo dir t maxFiles maxChars) := by
  constructor
  · intro h
    simp [summarizeRepo, h]
  · intro hne hmem
    have hlen : ¬ (excerptsOf dir t maxFiles maxChars).length = 0 := by
      simpa [List.length_eq_zero] using hne
    simp only [summarizeRepo] at hmem
    rw [if_neg hlen, List.append_nil] at hmem
    rcases List.mem_cons.mp hmem with h | h
    · have hh := congrArg List.head? h
      rw [sentinel_head, headerOf_head] at hh
      exact absurd hh (by decide)
    · obtain ⟨e, _, hbe⟩ := List.mem_map.mp h
      have hh := congrArg List.head? hbe
      rw [excerptBlock_head, sentinel_head] at hh
      exact absurd hh (by decide)

theorem C6_sentinel_witness :
    summarizeRepo ("/b".toList)
        (FSTree.dir ("b".toList) true
          [FSTree.file ("i.png".toList) (some ("x".toList))]) 4 9 =
      [headerOf ("/b".toList), sentinel] ∧
    ¬ sentinel ∈ summarizeRepo ("/c".toList)
        (FSTree.dir ("c".toList) true
          [FSTree.file ("a.txt".toList) (some ("x".toList))]) 4 9 :=
  ⟨(C6_sentinel ("/b".toList)
      (FSTree.dir ("b".toList) true
        [FSTree.file ("i.png".toList) (some ("x".toList))]) 4 9).1 (by decide),
   (C6_sentinel ("/c".toList)
      (FSTree.dir ("c".toList) true
        [FSTree.file ("a.txt".toList) (some ("x".toList))]) 4 9).2 (by decide)⟩

/-- Claim C7: for every included file, the relative path in the excerpt is
    the file's path with the root prefix and exactly one following
    separator removed (no separator removed when the root already ends in
    one); and a file path that does not start with the root is used
    verbatim. -/
theorem C7_relative_paths (root : List Char) (t : FSTree)
    (maxFiles maxChars : Nat) :
    (∀ e ∈ excerptsOf root t maxFiles maxChars,
      if endsWithSep root = true then e.file = root ++ e.rel
      else e.file = root ++ '/' :: e.rel) ∧
    (∀ d f, d.isPrefixOf f = false → relOf d f = f) := by
  constructor
  · intro e he
    obtain ⟨⟨c, hc, _⟩, hrel⟩ := gather_mem he
    have hext := walk_reach (e.file, c) hc
    by_cases hsep : endsWithSep root = true
    · rw [if_pos hsep]
      obtain ⟨⟨s, hs⟩, _⟩ := extends_shape hext
      have hs' : e.file = root ++ s := hs
      rw [hrel, hs', relOf_append hsep]
    · rw [if_neg hsep]
      have hsep' : endsWithSep root = false := Bool.eq_false_iff.mpr hsep
      have hlast : root.getLast? ≠ some '/' := by
        intro hl
        apply hsep
        simp [endsWithSep, hl]
      obtain ⟨_, hshape⟩ := extends_shape hext
      obtain ⟨s, hs⟩ := hshape hlast
      have hs' : e.file = root ++ '/' :: s := hs
      rw [hrel, hs', relOf_append_sep hsep']
  · intro d f h
    unfold relOf
    rw [if_neg (by simp [h])]

theorem C7_relative_paths_witness :
    "/r/a.txt".toList = "/r".toList ++ '/' :: "a.txt".toList := by
  have h := (C7_relative_paths ("/r".toList)
    (FSTree.dir ("r".toList) true
      [FSTree.file ("a.txt".toList) (some ("x".toList))]) 4 9).1
    (Excerpt.mk ("/r/a.txt".toList) ("a.txt".toList) ("x".toList))
    (by decide)
  rw [if_neg (by decide)] at h
  exact h

theorem walkGo_root_step (k : Nat) (root n : List Char) (b : Bool)
    (es : List FSTree) (mf : Nat) :
    walkGo (k + 1) root [] [(root, FSTree.dir n b es)] 0 mf =
      if mf ≤ 0 then []
      else if b then walkGo k root es [] 0 mf
      else walkGo k root [] [] 0 mf := by
  cases b <;> simp [walkGo]

/-- Claim C9: the ignore filter is applied only to entries discovered
    while listing a directory, never to the traversal root itself: the
    traversal does not depend on the root node's own name, and a root
    whose basename is in the ignore set still has its entries listed and
    its files included as excerpts. -/
theorem C9_root_not_filtered :
    (∀ root n₁ n₂ b es maxFiles,
      walk root (FSTree.dir n₁ b es) maxFiles =
        walk root (FSTree.dir n₂ b es) maxFiles) ∧
    excerptsOf ("/node_modules".toList)
        (FSTree.dir ("node_modules".toList) true
          [FSTree.file ("a.txt".toList) (some ("hi".toList))]) 5 9 =
      [Excerpt.mk ("/node_modules/a.txt".toList) ("a.txt".toList)
        ("hi".toList)] := by
  constructor
  · intro root n₁ n₂ b es maxFiles
    unfold walk
    simp only [FSTree.sz]
    rw [walkGo_root_step, walkGo_root_step]
  · decide

/-- Claim C10: a yielded path consumes the traversal budget even when it is
    later skipped: with `maxFiles = 1` and a binary file listed first, the
    only yielded path is the binary file, the output has zero excerpt
    blocks (sentinel appears) although the tree contains a readable text
    file that on its own would sample successfully. -/
theorem C10_budget_exhaustion :
    walk ("/r".toList)
        (FSTree.dir ("r".toList) true
          [FSTree.file ("a.png".toList) (some ("x".toList)),
           FSTree.file ("b.txt".toList) (some ("text".toList))]) 1 =
      [("/r/a.png".toList, some ("x".toList))] ∧
    excerptsOf ("/r".toList)
        (FSTree.dir ("r".toList) true
          [FSTree.file ("a.png".toList) (some ("x".toList)),
           FSTree.file ("b.txt".toList) (some ("text".toList))]) 1 100 =
      [] ∧
    summarizeRepo ("/r".toList)
        (FSTree.dir ("r".toList) true
          [FSTree.file ("a.png".toList) (some ("x".toList)),
           FSTree.file ("b.txt".toList) (some ("text".toList))]) 1 100 =
      [headerOf ("/r".toList), sentinel] ∧
    readSample ("/r/b.txt".toList) (some ("text".toList)) 100 =
      some ("text".toList) := by decide
